import Mathlib

/-!
# Verification of the python-sec EDGAR client's feed-parsing core

This development embeds, in Lean 4, the feed-parsing component of the
python-sec repository (`pysec`): the summary fragment scanner, the URL
variant synthesizer, the attribute extractor and the feed normalizer,
together with the two request-plumbing functions of `pysec/edgar.py`
(`companies_by_sic` and friends, `company_directories`).

The repository snapshot contains only `pysec/edgar.py`; the parser module
it calls (`pysec/parser.py`, class `EDGARParser`) is not present, so the
parsing component is modelled from the specification, as marked on each
definition.  `edgar.py` itself is embedded from its source.
-/

namespace Pysec

/-! ## Query-string layer (URL variant synthesizer support)

`Params` is an ordered parameter mapping: an association list from
parameter name to value, with unique keys once produced by `parseQuery`.
-/

abbrev Params := List (String × String)

/-- Split a character list at the first occurrence of `c`: returns the
prefix before `c` and, when `c` occurs, the remainder after it. -/
def breakAt (c : Char) : List Char → List Char × Option (List Char)
  | [] => ([], none)
  | x :: xs =>
    if x = c then ([], some xs)
    else (x :: (breakAt c xs).1, (breakAt c xs).2)

/-- Prepend a character to the first segment of a segment list. -/
def consHead (x : Char) : List (List Char) → List (List Char)
  | [] => [[x]]
  | s :: ss => (x :: s) :: ss

/-- Split a character list at every occurrence of `c` (always returns a
non-empty list of segments). -/
def splitAll (c : Char) : List Char → List (List Char)
  | [] => [[]]
  | x :: xs =>
    if x = c then [] :: splitAll c xs
    else consHead x (splitAll c xs)

/-- Join segments with separator `c` (inverse of `splitAll` on
separator-free segments). -/
def joinWith (c : Char) : List (List Char) → List Char
  | [] => []
  | [x] => x
  | x :: y :: ys => x ++ c :: joinWith c (y :: ys)

/-- Look up the value of the first pair whose key is `k`. -/
def getVal (k : String) : Params → Option String
  | [] => none
  | p :: ps => if p.1 = k then some p.2 else getVal k ps

/-- Whether some pair has key `k`. -/
def hasKey (k : String) : Params → Bool
  | [] => false
  | p :: ps => if p.1 = k then true else hasKey k ps

/-- Python-`dict`-style insertion: overwrite the value in place when the
key is present, otherwise append the pair at the end. -/
def insertP (m : Params) (kv : String × String) : Params :=
  if hasKey kv.1 m then m.map (fun p => if p.1 = kv.1 then kv else p)
  else m ++ [kv]

/-- Remove every pair whose key is `k`. -/
def removeKey (k : String) : Params → Params
  | [] => []
  | p :: ps => if p.1 = k then removeKey k ps else p :: removeKey k ps

/-- Parse one `key=value` query segment; a segment with no `=` is
malformed. -/
def parseSeg (seg : List Char) : Option (String × String) :=
  match breakAt '=' seg with
  | (_, none) => none
  | (k, some v) => some (⟨k⟩, ⟨v⟩)

/-- Parse every segment, failing when one is malformed. -/
def parseSegs : List (List Char) → Option (List (String × String))
  | [] => some []
  | s :: ss =>
    match parseSeg s, parseSegs ss with
    | some p, some ps => some (p :: ps)
    | _, _ => none

/-- Modelled from the spec: the missing `pysec/parser.py` parses a base
URL's query string "into an ordered mapping"; empty segments are skipped,
a segment without `=` makes the query unparseable, and a repeated key
overwrites its earlier value (an ordered mapping has unique keys). -/
def parseQuery (q : List Char) : Option Params :=
  match parseSegs ((splitAll '&' q).filter (fun s => !s.isEmpty)) with
  | none => none
  | some ps => some (ps.foldl insertP [])

/-- Serialize an ordered parameter mapping back to a query string. -/
def serializeQuery (ps : Params) : List Char :=
  joinWith '&' (ps.map fun p => p.1.data ++ '=' :: p.2.data)

/-- Split a URL at the first `?` into path and (optional) query string. -/
def splitUrl (u : String) : List Char × Option (List Char) :=
  breakAt '?' u.data

/-- Parse a URL into its path and its query string's ordered mapping;
fails when the query string is unparseable. -/
def parseUrl (u : String) : Option (List Char × Params) :=
  match parseQuery ((splitUrl u).2.getD []) with
  | none => none
  | some ps => some ((splitUrl u).1, ps)

/-- Rebuild a URL from a path and an ordered parameter mapping. -/
def serializeUrl (path : List Char) (ps : Params) : String :=
  ⟨path ++ (if ps.isEmpty then [] else '?' :: serializeQuery ps)⟩

/-! ## The 12-way derived-URL matrix -/

/-- The output-format axis of the derived-URL matrix. -/
inductive OutFmt
  | atom
  | html
deriving DecidableEq, Repr

/-- The ownership-inclusion axis of the derived-URL matrix. -/
inductive OwnAxis
  | ownOnly
  | ownExclude
  | ownInclude
deriving DecidableEq, Repr

/-- One cell of the (format x ownership x date-filtered) matrix. -/
structure Combo where
  fmt : OutFmt
  own : OwnAxis
  dated : Bool
deriving DecidableEq, Repr

/-- The value written into the `output` query parameter. -/
def fmtStr : OutFmt → String
  | .atom => "atom"
  | .html => "html"

/-- The ownership-axis part of a derived field key. -/
def ownStr : OwnAxis → String
  | .ownOnly => "owner_only"
  | .ownExclude => "owner_exclude"
  | .ownInclude => "owner_include"

/-- The record field key of one matrix cell, e.g. `atom_owner_only` or
`html_owner_exclude_filtered_date`. -/
def comboKey (c : Combo) : String :=
  fmtStr c.fmt ++ "_" ++ ownStr c.own ++ (if c.dated then "_filtered_date" else "")

/-- The 12 matrix cells, in the field order of the source's record
docstring: the six plain cells, then their six date-filtered variants. -/
def allCombos : List Combo :=
  [⟨.atom, .ownOnly, false⟩, ⟨.atom, .ownExclude, false⟩, ⟨.atom, .ownInclude, false⟩,
   ⟨.html, .ownOnly, false⟩, ⟨.html, .ownExclude, false⟩, ⟨.html, .ownInclude, false⟩,
   ⟨.atom, .ownOnly, true⟩, ⟨.atom, .ownExclude, true⟩, ⟨.atom, .ownInclude, true⟩,
   ⟨.html, .ownOnly, true⟩, ⟨.html, .ownExclude, true⟩, ⟨.html, .ownInclude, true⟩]

/-- The 12 derived-URL field keys. -/
def derivedKeys : List String := allCombos.map comboKey

/-- Modelled from the spec: the ownership-inclusion rewrite of the missing
`pysec/parser.py` — `myowner` is set to `only`, set to `exclude`, or
removed, respectively. -/
def applyOwn (o : OwnAxis) (ps : Params) : Params :=
  match o with
  | .ownOnly => insertP ps ("myowner", "only")
  | .ownExclude => insertP ps ("myowner", "exclude")
  | .ownInclude => removeKey "myowner" ps

/-- Modelled from the spec: the parameter rewrite of one matrix cell in
the missing `pysec/parser.py` — copy the base mapping, overwrite `output`
and the `myowner` parameter, and for a date-filtered cell inject the
currently-active `datea`/`dateb` bounds explicitly (empty when previously
unset). -/
def comboParams (c : Combo) (ps : Params) : Params :=
  let ps1 := applyOwn c.own (insertP ps ("output", fmtStr c.fmt))
  if c.dated then
    insertP (insertP ps1 ("datea", (getVal "datea" ps).getD ""))
      ("dateb", (getVal "dateb" ps).getD "")
  else ps1

/-- Modelled from the spec: the URL variant synthesizer of the missing
`pysec/parser.py` — parse the base link's query string into an ordered
mapping (`none` models the `UrlSynthesisError`), then produce the 12
derived URLs, one per matrix cell. -/
def derive_variants (base : String) : Option Params :=
  match parseUrl base with
  | none => none
  | some (path, ps) =>
    some (allCombos.map fun c => (comboKey c, serializeUrl path (comboParams c ps)))

/-! ## Well-formed parameter mappings and the query-string round trip -/

/-- A parameter name that survives re-serialization: no separator chars. -/
abbrev goodKey (k : String) : Prop := '&' ∉ k.data ∧ '=' ∉ k.data

/-- A parameter value that survives re-serialization: no `&`. -/
abbrev goodVal (v : String) : Prop := '&' ∉ v.data

/-- Well-formed ordered parameter mapping: unique keys, serializable
names and values.  `parseQuery` only ever produces such mappings. -/
def paramsWF (ps : Params) : Prop :=
  (ps.map Prod.fst).Nodup ∧ ∀ p ∈ ps, goodKey p.1 ∧ goodVal p.2

/-! ## Properties of the derived-URL matrix -/

/-- The `myowner` value each ownership-axis choice must produce on
re-parsing: `only`, `exclude`, or parameter absent. -/
def ownExpect : OwnAxis → Option String
  | .ownOnly => some "only"
  | .ownExclude => some "exclude"
  | .ownInclude => none

/-! ## Summary fragment scanner -/

/-- Characters allowed in a markup tag name. -/
def isTagChar (c : Char) : Bool := c.isAlpha || c.isDigit

/-- Trim whitespace from both ends. -/
def trimChars (cs : List Char) : List Char :=
  ((cs.dropWhile Char.isWhitespace).reverse.dropWhile Char.isWhitespace).reverse

/-- Drop one trailing occurrence of `c`, when present. -/
def dropTrailing (c : Char) (cs : List Char) : List Char :=
  if cs.getLast? = some c then cs.dropLast else cs

/-- Modelled from the spec: the missing `pysec/parser.py` normalizes each
label to lower-kebab-case (trim, drop the trailing colon, lowercase,
spaces to hyphens), e.g. `CIK` to `cik`, `SIC code` to `sic-code`. -/
def normalizeLabel (cs : List Char) : String :=
  ⟨(trimChars (dropTrailing ':' (trimChars cs))).map
    (fun c => if c = ' ' then '-' else c.toLower)⟩

/-- Modelled from the spec: the value following a label is trimmed (and
the separating comma before the next label is dropped). -/
def trimValue (cs : List Char) : String :=
  ⟨trimChars (dropTrailing ',' (trimChars cs))⟩

/-- Read a markup open tag body `name>` (the `<` already consumed). -/
def lexTag (cs : List Char) : Option (String × List Char) :=
  match cs.dropWhile isTagChar with
  | '>' :: r2 =>
    if (cs.takeWhile isTagChar).isEmpty then none
    else some (⟨cs.takeWhile isTagChar⟩, r2)
  | _ => none

/-- Read a closing tag `</name>` matching `tag`. -/
def lexClose (cs : List Char) (tag : String) : Option (List Char) :=
  match cs with
  | '<' :: '/' :: r =>
    if (⟨r.takeWhile isTagChar⟩ : String) = tag then
      match r.dropWhile isTagChar with
      | '>' :: r3 => some r3
      | _ => none
    else none
  | _ => none

/-- Modelled from the spec: the tolerant scanner of the missing
`pysec/parser.py` over the summary micro-format
`<b>label1:</b> value1, <b>label2:</b> value2, ...` — it emits the
`(normalized label, trimmed value)` pairs in text order and skips
anything that is not a recognizable emphasized `label: value` pair. -/
def scanPairs : Nat → List Char → List (String × String)
  | 0, _ => []
  | _, [] => []
  | fuel + 1, '<' :: rest =>
    match lexTag rest with
    | some (tag, r2) =>
      match lexClose (r2.dropWhile (fun c => c != '<')) tag with
      | some r4 =>
        (normalizeLabel (r2.takeWhile (fun c => c != '<')),
          trimValue (r4.takeWhile (fun c => c != '<'))) ::
          scanPairs fuel (r4.dropWhile (fun c => c != '<'))
      | none => scanPairs fuel r2
    | none => scanPairs fuel rest
  | fuel + 1, _ :: rest => scanPairs fuel rest

/-- The raw `(label, value)` pair sequence of a summary, in text order. -/
def scan_summary (s : String) : List (String × String) :=
  scanPairs (s.length + 1) s.data

/-- Modelled from the spec: `parse_summary` of the missing
`pysec/parser.py` — the scanned pairs are folded into an ordered mapping
with overwrite semantics (a repeated label's last occurrence wins);
unrecognizable input yields the empty mapping and never raises. -/
def parse_summary (s : String) : List (String × String) :=
  (scan_summary s).foldl insertP []

/-- The value of the last pair carrying key `k`. -/
def lastVal (k : String) : List (String × String) → Option String
  | [] => none
  | p :: ps =>
    match lastVal k ps with
    | some v => some v
    | none => if p.1 = k then some p.2 else none

/-! ## Attribute extractor, records and the feed normalizer -/

/-- One `link` child of a feed entry: relation attribute, declared media
type and target URL. -/
structure Link where
  rel : Option String
  type : String
  href : String
deriving DecidableEq, Repr

/-- Modelled from the spec: one feed-entry node of the missing
`pysec/parser.py`'s input — the four fixed scalar child fields (optional)
and the repeated `link` children. -/
structure FeedEntry where
  id? : Option String
  title? : Option String
  summary? : Option String
  updated? : Option String
  links : List Link
deriving DecidableEq, Repr

/-- The parser's output unit: a flat field-name-to-string mapping. -/
abbrev Record := List (String × String)

/-- Modelled from the spec: the primary link — the link child whose
relation attribute is absent or `alternate`, falling back to the first
link child. -/
def primaryLink (e : FeedEntry) : Option Link :=
  match e.links.find? (fun l => l.rel == none || l.rel == some "alternate") with
  | some l => some l
  | none => e.links.head?

/-- The primary link's target URL; empty string when the entry has no
link. -/
def entryHref (e : FeedEntry) : String := ((primaryLink e).map Link.href).getD ""

/-- The primary link's declared media type; empty string when the entry
has no link. -/
def entryType (e : FeedEntry) : String := ((primaryLink e).map Link.type).getD ""

/-- Modelled from the spec: the attribute extractor of the missing
`pysec/parser.py` — reads the fixed scalar fields by name (a missing
field yields the empty string) and the primary link's `href`/`type`. -/
def extract (e : FeedEntry) : Record :=
  [("id", e.id?.getD ""), ("title", e.title?.getD ""),
   ("summary", e.summary?.getD ""), ("updated", e.updated?.getD ""),
   ("href", entryHref e), ("type", entryType e)]

/-- The summary-derived optional fields: the parsed summary mapping when
the entry has a summary field, nothing otherwise. -/
def summaryFields (e : FeedEntry) : Record :=
  match e.summary? with
  | some s => parse_summary s
  | none => []

/-- The two fatal error conditions of the parsing component. -/
inductive NormError
  | malformedFeed
  | urlSynthesis
deriving DecidableEq, Repr

/-- Modelled from the spec: one entry's Record in the missing
`pysec/parser.py` — the attribute extractor's output, the summary
mapping, and the 12 derived URL fields; a base link whose query string
does not parse is fatal (`UrlSynthesisError`). -/
def mkRecord (e : FeedEntry) : Except NormError Record :=
  match derive_variants (entryHref e) with
  | none => .error .urlSynthesis
  | some vars => .ok (extract e ++ summaryFields e ++ vars)

/-- Normalize every entry in document order, propagating the first URL
synthesis failure. -/
def mapRecords : List FeedEntry → Except NormError (List Record)
  | [] => .ok []
  | e :: es =>
    match mkRecord e, mapRecords es with
    | .ok r, .ok rs => .ok (r :: rs)
    | .error err, _ => .error err
    | _, .error err => .error err

/-- Modelled from the spec: the feed normalizer of the missing
`pysec/parser.py` over an already-parsed document — produce every
entry's Record in document order, then truncate to the first
`limit` records after full parsing. -/
def normalizeDoc (doc : List FeedEntry) (limit : Option Nat) : Except NormError (List Record) :=
  match mapRecords doc with
  | .error err => .error err
  | .ok recs =>
    match limit with
    | none => .ok recs
    | some n => .ok (recs.take n)

/-! ## Markup document parsing (well-formedness layer) -/

/-- A markup node: an element with attributes and children, or text. -/
inductive Xml
  | elem (tag : String) (attrs : List (String × String)) (children : List Xml)
  | text (s : String)

/-- Lexical tokens of the markup scanner. -/
inductive XmlTok
  | openT (name : String) (attrs : List (String × String))
  | closeT (name : String)
  | selfT (name : String) (attrs : List (String × String))
  | textT (s : String)

/-- Characters allowed in a markup name. -/
def isNameChar (c : Char) : Bool :=
  c.isAlpha || c.isDigit || c == '-' || c == '_' || c == ':'

/-- Scan an attribute list up to the closing `>` (or `/>`); `none` on
malformed attribute syntax. -/
def lexAttrs : Nat → List Char → Option (List (String × String) × Bool × List Char)
  | 0, _ => none
  | fuel + 1, cs =>
    match cs.dropWhile (fun c => c.isWhitespace) with
    | '>' :: r => some ([], false, r)
    | '/' :: '>' :: r => some ([], true, r)
    | r =>
      if (r.takeWhile isNameChar).isEmpty then none
      else
        match r.dropWhile isNameChar with
        | '=' :: '"' :: r3 =>
          match breakAt '"' r3 with
          | (_, none) => none
          | (v, some r4) =>
            match lexAttrs fuel r4 with
            | none => none
            | some (attrs, selfC, r5) =>
              some ((⟨r.takeWhile isNameChar⟩, ⟨v⟩) :: attrs, selfC, r5)
        | _ => none

/-- Modelled from the spec: tokenize markup text; `none` models text
that is not well-formed markup (the missing `pysec/parser.py` delegates
this to an XML library). -/
def tokenize : Nat → List Char → Option (List XmlTok)
  | 0, _ => none
  | _ + 1, [] => some []
  | fuel + 1, '<' :: rest =>
    match rest with
    | '/' :: r2 =>
      if (r2.takeWhile isNameChar).isEmpty then none
      else
        match (r2.dropWhile isNameChar).dropWhile (fun c => c.isWhitespace) with
        | '>' :: r4 =>
          match tokenize fuel r4 with
          | none => none
          | some toks => some (.closeT ⟨r2.takeWhile isNameChar⟩ :: toks)
        | _ => none
    | _ =>
      if (rest.takeWhile isNameChar).isEmpty then none
      else
        match lexAttrs (fuel + 1) (rest.dropWhile isNameChar) with
        | none => none
        | some (attrs, selfC, r3) =>
          match tokenize fuel r3 with
          | none => none
          | some toks =>
            some ((if selfC then XmlTok.selfT ⟨rest.takeWhile isNameChar⟩ attrs
              else XmlTok.openT ⟨rest.takeWhile isNameChar⟩ attrs) :: toks)
  | fuel + 1, c :: rest =>
    match tokenize fuel ((c :: rest).dropWhile (fun ch => ch != '<')) with
    | none => none
    | some toks => some (.textT ⟨(c :: rest).takeWhile (fun ch => ch != '<')⟩ :: toks)

/-- Attach a finished node to the enclosing open element, or to the root
accumulator when no element is open. -/
def pushNode (node : Xml) (stack : List (String × List (String × String) × List Xml))
    (acc : List Xml) : List (String × List (String × String) × List Xml) × List Xml :=
  match stack with
  | [] => ([], node :: acc)
  | (t, a, kids) :: st => ((t, a, node :: kids) :: st, acc)

/-- Build the node forest from the token stream with a stack of open
elements; `none` on mismatched or unclosed tags. -/
def build : List XmlTok → List (String × List (String × String) × List Xml) →
    List Xml → Option (List Xml)
  | [], [], acc => some acc.reverse
  | [], _ :: _, _ => none
  | .openT n a :: rest, stack, acc => build rest ((n, a, []) :: stack) acc
  | .selfT n a :: rest, stack, acc =>
    build rest (pushNode (.elem n a []) stack acc).1 (pushNode (.elem n a []) stack acc).2
  | .textT s :: rest, stack, acc =>
    build rest (pushNode (.text s) stack acc).1 (pushNode (.text s) stack acc).2
  | .closeT _ :: _, [], _ => none
  | .closeT n :: rest, (t, a, kids) :: st, acc =>
    if t = n then
      build rest (pushNode (.elem t a kids.reverse) st acc).1
        (pushNode (.elem t a kids.reverse) st acc).2
    else none

/-- Whether a node is an element. -/
def isElemB : Xml → Bool
  | .elem _ _ _ => true
  | .text _ => false

/-- Modelled from the spec: parse a whole markup document — the only
fatal condition is text that is not well-formed markup (here: lexing
failure, tag mismatch, or not exactly one root element). -/
def xmlParse (s : String) : Except Unit Xml :=
  match tokenize (s.length + 1) s.data with
  | none => .error ()
  | some toks =>
    match build toks [] [] with
    | none => .error ()
    | some roots =>
      match roots.filter isElemB with
      | [e] => .ok e
      | _ => .error ()

/-- Concatenated text content of a node list. -/
def textOf (kids : List Xml) : String :=
  String.join (kids.filterMap fun k =>
    match k with
    | .text s => some s
    | _ => none)

/-- The text content of the first child element with the given tag. -/
def childText (kids : List Xml) (tag : String) : Option String :=
  kids.findSome? fun k =>
    match k with
    | .elem t _ cs => if t = tag then some (textOf cs) else none
    | _ => none

/-- The `link` children of an entry node. -/
def linksOf (kids : List Xml) : List Link :=
  kids.filterMap fun k =>
    match k with
    | .elem t attrs _ =>
      if t = "link" then
        some { rel := getVal "rel" attrs, type := (getVal "type" attrs).getD "",
               href := (getVal "href" attrs).getD "" }
      else none
    | _ => none

/-- Modelled from the spec: turn one `entry` element's children into a
feed entry (tolerant, optional-field lookup). -/
def toFeedEntry (kids : List Xml) : FeedEntry :=
  { id? := childText kids "id", title? := childText kids "title",
    summary? := childText kids "summary", updated? := childText kids "updated",
    links := linksOf kids }

/-- The `entry` children of the document root, in document order. -/
def entriesOf (root : Xml) : List FeedEntry :=
  match root with
  | .elem _ _ kids =>
    kids.filterMap fun k =>
      match k with
      | .elem t _ ekids => if t = "entry" then some (toFeedEntry ekids) else none
      | _ => none
  | .text _ => []

/-- Modelled from the spec: `parse_entries` of the missing
`pysec/parser.py` (the spec's `normalize`) — parse the response text
(`MalformedFeedError` when it is not well-formed markup), then normalize
every entry in document order under the optional result cap. -/
def parse_entries (entries_text : String) (num_of_items : Option Nat) :
    Except NormError (List Record) :=
  match xmlParse entries_text with
  | .error _ => .error .malformedFeed
  | .ok root => normalizeDoc (entriesOf root) num_of_items

/-! ## The request layer of `pysec/edgar.py` -/

/-- `EDGARQuery.sec_archive` (edgar.py line 19). -/
def sec_archive : String := "https://www.sec.gov/Archives/edgar/data"

/-- `EDGARQuery.companies_by_sic` (edgar.py lines 284-352): builds the
SIC query, fetches it (the response text is passed in here), and parses
the entries; `num_of_companies` is accepted but never forwarded to
`parse_entries`. -/
def companies_by_sic (sic_code : String) (num_of_companies : Option Nat)
    (response_text : String) : Except NormError (List Record) :=
  parse_entries response_text none

/-- `EDGARQuery.companies_by_state` (edgar.py lines 212-243): forwards
`num_of_companies` to `parse_entries` as `num_of_items`. -/
def companies_by_state (state : String) (num_of_companies : Option Nat)
    (response_text : String) : Except NormError (List Record) :=
  parse_entries response_text num_of_companies

/-- `EDGARQuery.companies_by_country` (edgar.py lines 245-282): forwards
`num_of_companies` to `parse_entries` as `num_of_items`. -/
def companies_by_country (country : String) (num_of_companies : Option Nat)
    (response_text : String) : Except NormError (List Record) :=
  parse_entries response_text num_of_companies

/-- Python `dict.pop`: the value and the dictionary without the key;
`none` models the `KeyError`. -/
def dictPop (d : Params) (k : String) : Option (String × Params) :=
  match getVal k d with
  | none => none
  | some v => some (v, removeKey k d)

/-- One iteration of `EDGARQuery.company_directories`'s loop (edgar.py
lines 76-87): set `url` from the item's `name`, pop `name` into
`filing_id`, pop `last-modified` into `last_modified`. -/
def clean_directory (cik : String) (d : Params) : Option Params :=
  match getVal "name" d with
  | none => none
  | some nm =>
    match dictPop (insertP d ("url", sec_archive ++ "/" ++ cik ++ "/" ++ nm ++ "/index.json")) "name" with
    | none => none
    | some (fid, d2) =>
      match dictPop (insertP d2 ("filing_id", fid)) "last-modified" with
      | none => none
      | some (lm, d4) => some (insertP d4 ("last_modified", lm))

/-- `EDGARQuery.company_directories` (edgar.py lines 28-89) over the
decoded `directory.item` list of the directory-listing JSON response. -/
def company_directories (cik : String) : List Params → Option (List Params)
  | [] => some []
  | d :: ds =>
    match clean_directory cik d, company_directories cik ds with
    | some o, some os => some (o :: os)
    | _, _ => none

/-- A concrete sample link, from the spec's example scenario. -/
def sampleLink : Link :=
  { rel := some "alternate", type := "text/html",
    href := "https://x?CIK=66740&action=getcompany&output=atom" }

/-- A concrete sample entry, from the spec's example scenario. -/
def sampleEntry : FeedEntry :=
  { id? := some "urn:x", title? := some "3M CO",
    summary? := some "<b>CIK:</b> 0000066740, <b>State:</b> MN",
    updated? := some "2020-04-05T15:21:24-04:00", links := [sampleLink] }

/-- The record the normalizer produces for `sampleEntry`. -/
def sampleRecord : Record := (mkRecord sampleEntry).toOption.getD []

/-- A concrete entry with every optional field missing. -/
def bareEntry : FeedEntry :=
  { id? := none, title? := none, summary? := none, updated? := none, links := [] }

/-- The derived-URL fields of `bareEntry`'s (empty) primary link. -/
def bareVars : Params := (derive_variants (entryHref bareEntry)).getD []

/-- The record the normalizer produces for `bareEntry`. -/
def bareRecord : Record := (mkRecord bareEntry).toOption.getD []

/-! ## Splitting / joining lemmas -/

theorem breakAt_fst_not_mem (c : Char) : ∀ l : List Char, c ∉ (breakAt c l).1 := by
  intro l
  induction l with
  | nil => simp [breakAt]
  | cons x xs ih =>
    by_cases hx : x = c
    · simp [breakAt, hx]
    · simp only [breakAt, if_neg hx, List.mem_cons, not_or]
      exact ⟨fun h => hx h.symm, ih⟩

theorem breakAt_of_not_mem {c : Char} {l : List Char} (h : c ∉ l) :
    breakAt c l = (l, none) := by
  induction l with
  | nil => rfl
  | cons x xs ih =>
    simp only [List.mem_cons, not_or] at h
    have hx : ¬ x = c := fun hx => h.1 hx.symm
    simp [breakAt, hx, ih h.2]

theorem breakAt_append {c : Char} {a : List Char} (r : List Char) (h : c ∉ a) :
    breakAt c (a ++ c :: r) = (a, some r) := by
  induction a with
  | nil => simp [breakAt]
  | cons x xs ih =>
    simp only [List.mem_cons, not_or] at h
    have hx : ¬ x = c := fun hx => h.1 hx.symm
    simp [breakAt, hx, ih h.2]

theorem breakAt_eq_some {c : Char} : ∀ {l a r : List Char},
    breakAt c l = (a, some r) → l = a ++ c :: r := by
  intro l
  induction l with
  | nil => intro a r h; exact absurd h (by simp [breakAt])
  | cons x xs ih =>
    intro a r h
    by_cases hx : x = c
    · simp only [breakAt, if_pos hx] at h
      injection h with h1 h2
      injection h2 with h2
      subst h1; subst h2; subst hx
      rfl
    · simp only [breakAt, if_neg hx] at h
      injection h with h1 h2
      subst h1
      have hsplit : breakAt c xs = ((breakAt c xs).1, some r) := by
        have : breakAt c xs = ((breakAt c xs).1, (breakAt c xs).2) := rfl
        rw [this, h2]
      have hxs := ih hsplit
      simp only [List.cons_append]
      exact congrArg (List.cons x) hxs

theorem consHead_ne_nil (x : Char) (l : List (List Char)) : consHead x l ≠ [] := by
  cases l <;> simp [consHead]

theorem splitAll_ne_nil (c : Char) (l : List Char) : splitAll c l ≠ [] := by
  induction l with
  | nil => simp [splitAll]
  | cons x xs ih =>
    by_cases hx : x = c
    · simp [splitAll, hx]
    · simp only [splitAll, if_neg hx]
      exact consHead_ne_nil _ _

theorem not_mem_of_mem_splitAll {c : Char} : ∀ {l : List Char} {s : List Char},
    s ∈ splitAll c l → c ∉ s := by
  intro l
  induction l with
  | nil => intro s h; simp [splitAll] at h; simp [h]
  | cons x xs ih =>
    intro s h
    by_cases hx : x = c
    · simp only [splitAll, if_pos hx] at h
      rcases List.mem_cons.mp h with rfl | h
      · simp
      · exact ih h
    · simp only [splitAll, if_neg hx] at h
      cases hs : splitAll c xs with
      | nil => exact absurd hs (splitAll_ne_nil c xs)
      | cons t ts =>
        rw [hs] at h
        simp only [consHead] at h
        rcases List.mem_cons.mp h with rfl | h
        · intro hm
          rcases List.mem_cons.mp hm with rfl | hm
          · exact hx rfl
          · exact ih (hs ▸ List.mem_cons_self t ts) hm
        · exact ih (hs ▸ List.mem_cons_of_mem t h)

theorem splitAll_of_not_mem {c : Char} {l : List Char} (h : c ∉ l) :
    splitAll c l = [l] := by
  induction l with
  | nil => rfl
  | cons x xs ih =>
    simp only [List.mem_cons, not_or] at h
    have hx : ¬ x = c := fun hx => h.1 hx.symm
    simp [splitAll, hx, ih h.2, consHead]

theorem splitAll_cons_ne {c x : Char} (xs : List Char) (hx : ¬ x = c) :
    splitAll c (x :: xs) = consHead x (splitAll c xs) := by
  simp [splitAll, hx]

theorem splitAll_append {c : Char} {a : List Char} (r : List Char) (h : c ∉ a) :
    splitAll c (a ++ c :: r) = a :: splitAll c r := by
  induction a with
  | nil => simp [splitAll]
  | cons x xs ih =>
    simp only [List.mem_cons, not_or] at h
    have hx : ¬ x = c := fun hx => h.1 hx.symm
    rw [List.cons_append, splitAll_cons_ne _ hx, ih h.2]
    rfl

theorem splitAll_joinWith {c : Char} : ∀ {parts : List (List Char)},
    parts ≠ [] → (∀ x ∈ parts, c ∉ x) → splitAll c (joinWith c parts) = parts := by
  intro parts
  induction parts with
  | nil => intro h; exact absurd rfl h
  | cons x ps ih =>
    intro _ hc
    cases ps with
    | nil => simpa [joinWith] using splitAll_of_not_mem (hc x (by simp))
    | cons y ys =>
      have hx : c ∉ x := hc x (by simp)
      have : splitAll c (x ++ c :: joinWith c (y :: ys)) = x :: splitAll c (joinWith c (y :: ys)) :=
        splitAll_append _ hx
      simp only [joinWith, this]
      rw [ih (by simp) (fun z hz => hc z (List.mem_cons_of_mem x hz))]

/-! ## Ordered-mapping lemmas -/

theorem hasKey_eq_false_iff {k : String} {m : Params} :
    hasKey k m = false ↔ ∀ p ∈ m, p.1 ≠ k := by
  induction m with
  | nil => simp [hasKey]
  | cons q qs ih =>
    by_cases hq : q.1 = k
    · simp [hasKey, hq]
    · simp [hasKey, hq, ih]

theorem hasKey_eq_true_iff {k : String} {m : Params} :
    hasKey k m = true ↔ ∃ p ∈ m, p.1 = k := by
  rcases h : hasKey k m with _ | _
  · simp only [Bool.false_eq_true, false_iff]
    intro ⟨p, hp, hpk⟩
    exact hasKey_eq_false_iff.mp h p hp hpk
  · simp only [true_iff]
    by_contra hc
    push_neg at hc
    rw [hasKey_eq_false_iff.mpr hc] at h
    simp at h

theorem getVal_eq_none_iff {k : String} {m : Params} :
    getVal k m = none ↔ hasKey k m = false := by
  induction m with
  | nil => simp [getVal, hasKey]
  | cons q qs ih =>
    by_cases hq : q.1 = k
    · simp [getVal, hasKey, hq]
    · simp [getVal, hasKey, hq, ih]

theorem getVal_map_overwrite_self {m : Params} {k v : String}
    (hex : ∃ p ∈ m, p.1 = k) :
    getVal k (m.map fun p => if p.1 = k then (k, v) else p) = some v := by
  induction m with
  | nil => simp at hex
  | cons q qs ih =>
    by_cases hq : q.1 = k
    · simp only [List.map_cons, if_pos hq, getVal]
      simp
    · simp only [List.map_cons, if_neg hq, getVal, if_neg hq]
      rcases hex with ⟨p, hp, hpk⟩
      rcases List.mem_cons.mp hp with rfl | hp2
      · exact absurd hpk hq
      · exact ih ⟨p, hp2, hpk⟩

theorem getVal_map_overwrite_ne {m : Params} {k k' v : String} (h : k' ≠ k) :
    getVal k' (m.map fun p => if p.1 = k then (k, v) else p) = getVal k' m := by
  induction m with
  | nil => rfl
  | cons q qs ih =>
    by_cases hq : q.1 = k
    · have hk' : ¬ ((k, v) : String × String).1 = k' := fun hh => h hh.symm
      have hq' : ¬ q.1 = k' := fun hh => h (hq ▸ hh).symm
      simp only [List.map_cons, if_pos hq, getVal, if_neg hk', if_neg hq', ih]
    · by_cases hq' : q.1 = k'
      · simp only [List.map_cons, if_neg hq, getVal, if_pos hq']
      · simp only [List.map_cons, if_neg hq, getVal, if_neg hq', ih]

theorem getVal_removeKey_self {k : String} {m : Params} :
    getVal k (removeKey k m) = none := by
  induction m with
  | nil => rfl
  | cons q qs ih =>
    by_cases hq : q.1 = k
    · simp only [removeKey, if_pos hq, ih]
    · simp only [removeKey, if_neg hq, getVal, if_neg hq, ih]

theorem getVal_removeKey_ne {k k' : String} {m : Params} (h : k' ≠ k) :
    getVal k' (removeKey k m) = getVal k' m := by
  induction m with
  | nil => rfl
  | cons q qs ih =>
    by_cases hq : q.1 = k
    · have hq' : ¬ q.1 = k' := fun hh => h (hq ▸ hh).symm
      simp only [removeKey, if_pos hq, ih, getVal, if_neg hq']
    · by_cases hq' : q.1 = k'
      · simp only [removeKey, if_neg hq, getVal, if_pos hq']
      · simp only [removeKey, if_neg hq, getVal, if_neg hq', ih]

theorem getVal_append_of_none {k : String} {m m' : Params} (h : getVal k m = none) :
    getVal k (m ++ m') = getVal k m' := by
  induction m with
  | nil => rfl
  | cons q qs ih =>
    by_cases hq : q.1 = k
    · simp [getVal, hq] at h
    · simp only [getVal, if_neg hq] at h
      simp [getVal, hq, ih h]

theorem getVal_append_of_some {k v : String} {m m' : Params} (h : getVal k m = some v) :
    getVal k (m ++ m') = some v := by
  induction m with
  | nil => simp [getVal] at h
  | cons q qs ih =>
    by_cases hq : q.1 = k
    · simp only [getVal, if_pos hq] at h
      simp [getVal, hq, h]
    · simp only [getVal, if_neg hq] at h
      simp [getVal, hq, ih h]

theorem getVal_isSome_append_right {k : String} {m m' : Params}
    (h : (getVal k m').isSome) : (getVal k (m ++ m')).isSome := by
  rcases hm : getVal k m with _ | v
  · rw [getVal_append_of_none hm]; exact h
  · rw [getVal_append_of_some hm]; rfl

theorem getVal_mem {k v : String} : ∀ {m : Params}, getVal k m = some v → (k, v) ∈ m := by
  intro m
  induction m with
  | nil => intro h; simp [getVal] at h
  | cons q qs ih =>
    intro h
    by_cases hq : q.1 = k
    · simp only [getVal, if_pos hq] at h
      have hv : q.2 = v := by injection h
      have hqv : q = (k, v) := by
        obtain ⟨a, b⟩ := q
        simp only at hq hv
        rw [hq, hv]
      rw [← hqv]
      exact List.mem_cons_self q qs
    · simp only [getVal, if_neg hq] at h
      exact List.mem_cons_of_mem q (ih h)

theorem getVal_insertP_self {m : Params} {k v : String} :
    getVal k (insertP m (k, v)) = some v := by
  rw [insertP]
  rcases h : hasKey k m with _ | _
  · simp only [Bool.false_eq_true, if_false]
    rw [getVal_append_of_none (getVal_eq_none_iff.mpr h)]
    simp [getVal]
  · simp only [if_true]
    exact getVal_map_overwrite_self (hasKey_eq_true_iff.mp h)

theorem getVal_insertP_ne {m : Params} {k k' v : String} (h : k' ≠ k) :
    getVal k' (insertP m (k, v)) = getVal k' m := by
  rw [insertP]
  rcases hk : hasKey k m with _ | _
  · simp only [Bool.false_eq_true, if_false]
    rcases hm : getVal k' m with _ | w
    · rw [getVal_append_of_none hm]
      have hkk : ¬ ((k, v) : String × String).1 = k' := fun hh => h hh.symm
      simp [getVal, if_neg hkk, hm]
    · exact getVal_append_of_some hm
  · simp only [if_true]
    exact getVal_map_overwrite_ne h

theorem hasKey_false_not_mem_keys {k : String} {m : Params} (h : hasKey k m = false) :
    k ∉ m.map Prod.fst := by
  intro hmem
  rcases List.mem_map.mp hmem with ⟨p, hp, hpk⟩
  exact hasKey_eq_false_iff.mp h p hp hpk

theorem insertP_keys {m : Params} {k v : String} :
    (insertP m (k, v)).map Prod.fst =
      if hasKey k m then m.map Prod.fst else m.map Prod.fst ++ [k] := by
  rw [insertP]
  rcases h : hasKey k m with _ | _
  · simp
  · simp only [if_true, List.map_map]
    apply List.map_congr_left
    intro p _
    by_cases hp : p.1 = k
    · simp [hp]
    · simp [hp]

theorem insertP_WF {m : Params} {k v : String} (hm : paramsWF m)
    (hk : goodKey k) (hv : goodVal v) : paramsWF (insertP m (k, v)) := by
  constructor
  · rw [insertP_keys]
    rcases h : hasKey k m with _ | _
    · simp only [Bool.false_eq_true, if_false]
      rw [List.nodup_append]
      refine ⟨hm.1, List.nodup_singleton k, ?_⟩
      intro a ha hak
      rcases List.mem_singleton.mp hak with rfl
      exact hasKey_false_not_mem_keys h ha
    · simpa using hm.1
  · intro p hp
    rw [insertP] at hp
    rcases h : hasKey k m with _ | _ <;> rw [h] at hp
    · simp only [Bool.false_eq_true, if_false] at hp
      rcases List.mem_append.mp hp with hp | hp
      · exact hm.2 p hp
      · rcases List.mem_singleton.mp hp with rfl
        exact ⟨hk, hv⟩
    · simp only [if_true] at hp
      rcases List.mem_map.mp hp with ⟨q, hq, rfl⟩
      by_cases hqk : q.1 = k
      · simpa [hqk] using ⟨hk, hv⟩
      · simpa [hqk] using hm.2 q hq

theorem removeKey_sublist (k : String) : ∀ m : Params, (removeKey k m).Sublist m := by
  intro m
  induction m with
  | nil => simp [removeKey]
  | cons q qs ih =>
    by_cases hq : q.1 = k
    · simp only [removeKey, if_pos hq]
      exact ih.cons q
    · simp only [removeKey, if_neg hq]
      exact ih.cons₂ q

theorem removeKey_WF {m : Params} (k : String) (hm : paramsWF m) :
    paramsWF (removeKey k m) := by
  constructor
  · exact hm.1.sublist ((removeKey_sublist k m).map Prod.fst)
  · intro p hp
    exact hm.2 p ((removeKey_sublist k m).subset hp)

theorem foldl_insertP_eq_append : ∀ {pairs : List (String × String)} (acc : Params),
    (pairs.map Prod.fst).Nodup → (∀ p ∈ pairs, ∀ q ∈ acc, q.1 ≠ p.1) →
    pairs.foldl insertP acc = acc ++ pairs := by
  intro pairs
  induction pairs with
  | nil => intro acc _ _; simp
  | cons p ps ih =>
    intro acc hnd hdisj
    have hkey : hasKey p.1 acc = false :=
      hasKey_eq_false_iff.mpr (fun q hq => hdisj p (by simp) q hq)
    have hins : insertP acc p = acc ++ [p] := by
      rw [insertP, hkey]
      simp
    have hnd2 : (ps.map Prod.fst).Nodup := by
      simp only [List.map_cons, List.nodup_cons] at hnd
      exact hnd.2
    have hfresh : p.1 ∉ ps.map Prod.fst := by
      simp only [List.map_cons, List.nodup_cons] at hnd
      exact hnd.1
    rw [List.foldl_cons, hins, ih (acc ++ [p]) hnd2 ?hdisj2]
    · simp
    case hdisj2 =>
      intro r hr q hq
      rcases List.mem_append.mp hq with hq | hq
      · exact hdisj r (List.mem_cons_of_mem p hr) q hq
      · rcases List.mem_singleton.mp hq with rfl
        intro hpr
        exact hfresh (hpr ▸ List.mem_map_of_mem Prod.fst hr)

theorem parseSeg_good {seg : List Char} {p : String × String} (hs : '&' ∉ seg)
    (h : parseSeg seg = some p) : goodKey p.1 ∧ goodVal p.2 := by
  rw [parseSeg] at h
  rcases hb : breakAt '=' seg with ⟨k, _ | v⟩
  · rw [hb] at h; exact absurd h (by simp)
  · rw [hb] at h
    simp only [Option.some.injEq] at h
    subst h
    have hkeq : (breakAt '=' seg).1 = k := by rw [hb]
    have hkne : '=' ∉ k := hkeq ▸ breakAt_fst_not_mem '=' seg
    have hseg : seg = k ++ '=' :: v := breakAt_eq_some hb
    rw [hseg] at hs
    simp only [List.mem_append, List.mem_cons, not_or] at hs
    exact ⟨⟨hs.1, hkne⟩, hs.2.2⟩

theorem parseSegs_good : ∀ {segs : List (List Char)} {ps : List (String × String)},
    (∀ s ∈ segs, '&' ∉ s) → parseSegs segs = some ps →
    ∀ p ∈ ps, goodKey p.1 ∧ goodVal p.2 := by
  intro segs
  induction segs with
  | nil =>
    intro ps _ h
    rw [parseSegs] at h
    simp only [Option.some.injEq] at h
    subst h
    simp
  | cons s ss ih =>
    intro ps hmem h
    rw [parseSegs] at h
    rcases hp : parseSeg s with _ | q <;> rw [hp] at h
    · exact absurd h (by simp)
    · rcases hps : parseSegs ss with _ | qs <;> rw [hps] at h
      · exact absurd h (by simp)
      · simp only [Option.some.injEq] at h
        subst h
        intro p hpm
        rcases List.mem_cons.mp hpm with rfl | hpm
        · exact parseSeg_good (hmem s (by simp)) hp
        · exact ih (fun t ht => hmem t (List.mem_cons_of_mem s ht)) hps p hpm

theorem paramsWF_nil : paramsWF [] := ⟨List.nodup_nil, by simp⟩

theorem foldl_insertP_WF : ∀ {pairs : List (String × String)},
    (∀ p ∈ pairs, goodKey p.1 ∧ goodVal p.2) → ∀ acc, paramsWF acc →
    paramsWF (pairs.foldl insertP acc) := by
  intro pairs
  induction pairs with
  | nil => intro _ acc hacc; exact hacc
  | cons p ps ih =>
    intro hgood acc hacc
    rw [List.foldl_cons]
    have hp := hgood p (by simp)
    have : insertP acc p = insertP acc (p.1, p.2) := by rfl
    rw [this]
    exact ih (fun q hq => hgood q (List.mem_cons_of_mem p hq)) _
      (insertP_WF hacc hp.1 hp.2)

theorem parseQuery_WF {q : List Char} {ps : Params} (h : parseQuery q = some ps) :
    paramsWF ps := by
  rw [parseQuery] at h
  rcases hsegs : parseSegs ((splitAll '&' q).filter (fun s => !s.isEmpty)) with _ | pairs <;>
    rw [hsegs] at h
  · exact absurd h (by simp)
  · simp only [Option.some.injEq] at h
    subst h
    have hgood : ∀ p ∈ pairs, goodKey p.1 ∧ goodVal p.2 := by
      refine parseSegs_good ?_ hsegs
      intro s hs
      exact not_mem_of_mem_splitAll (List.mem_of_mem_filter hs)
    exact foldl_insertP_WF hgood [] paramsWF_nil

theorem parseSeg_serialize {k v : String} (hk : '=' ∉ k.data) :
    parseSeg (k.data ++ '=' :: v.data) = some (k, v) := by
  rw [parseSeg, breakAt_append v.data hk]

theorem parseSegs_serialize : ∀ {ps : List (String × String)},
    (∀ p ∈ ps, '=' ∉ p.1.data) →
    parseSegs (ps.map fun p => p.1.data ++ '=' :: p.2.data) = some ps := by
  intro ps
  induction ps with
  | nil => intro _; rfl
  | cons p pr ih =>
    intro h
    simp only [List.map_cons, parseSegs,
      parseSeg_serialize (h p (by simp)),
      ih (fun q hq => h q (List.mem_cons_of_mem p hq))]

theorem parseQuery_serializeQuery {ps : Params} (hwf : paramsWF ps) :
    parseQuery (serializeQuery ps) = some ps := by
  cases hps : ps with
  | nil => rfl
  | cons p pr =>
    rw [← hps]
    have hint : ∀ s ∈ ps.map (fun p => p.1.data ++ '=' :: p.2.data), '&' ∉ s := by
      intro s hs
      rcases List.mem_map.mp hs with ⟨q, hq, rfl⟩
      have hg := hwf.2 q hq
      simp only [List.mem_append, List.mem_cons, not_or]
      exact ⟨hg.1.1, by decide, hg.2⟩
    have h1 : splitAll '&' (serializeQuery ps) = ps.map (fun p => p.1.data ++ '=' :: p.2.data) := by
      rw [serializeQuery]
      exact splitAll_joinWith (by simp [hps]) hint
    have h2 : (ps.map (fun p => p.1.data ++ '=' :: p.2.data)).filter (fun s => !s.isEmpty) =
        ps.map (fun p => p.1.data ++ '=' :: p.2.data) := by
      apply List.filter_eq_self.mpr
      intro s hs
      rcases List.mem_map.mp hs with ⟨q, _, rfl⟩
      cases q.1.data <;> simp
    have h3 : parseSegs (ps.map fun p => p.1.data ++ '=' :: p.2.data) = some ps :=
      parseSegs_serialize (fun q hq => (hwf.2 q hq).1.2)
    rw [parseQuery, h1, h2, h3]
    simp only [Option.some.injEq]
    have := foldl_insertP_eq_append [] hwf.1 (by simp)
    simpa using this

theorem parseUrl_serializeUrl {path : List Char} {ps : Params}
    (hp : '?' ∉ path) (hwf : paramsWF ps) :
    parseUrl (serializeUrl path ps) = some (path, ps) := by
  have hdata : (serializeUrl path ps).data =
      path ++ (if ps.isEmpty then [] else '?' :: serializeQuery ps) := rfl
  cases hps : ps with
  | nil =>
    rw [parseUrl, splitUrl]
    have hd : (serializeUrl path []).data = path := by
      show path ++ (if ([] : Params).isEmpty then [] else '?' :: serializeQuery []) = path
      simp
    rw [hd, breakAt_of_not_mem hp]
    rfl
  | cons p pr =>
    rw [← hps]
    have hne : ps.isEmpty = false := by rw [hps]; rfl
    rw [parseUrl, splitUrl]
    simp only [hdata, hne, Bool.false_eq_true, if_false,
      breakAt_append (serializeQuery ps) hp]
    simp only [Option.getD_some]
    rw [parseQuery_serializeQuery hwf]

theorem goodVal_getD {ps : Params} (hwf : paramsWF ps) (k : String) :
    goodVal ((getVal k ps).getD "") := by
  rcases h : getVal k ps with _ | v
  · simp only [Option.getD_none]
    decide
  · simp only [Option.getD_some]
    exact (hwf.2 _ (getVal_mem h)).2

theorem applyOwn_WF {o : OwnAxis} {ps : Params} (hwf : paramsWF ps) :
    paramsWF (applyOwn o ps) := by
  cases o with
  | ownOnly => exact insertP_WF hwf (by decide) (by decide)
  | ownExclude => exact insertP_WF hwf (by decide) (by decide)
  | ownInclude => exact removeKey_WF _ hwf

theorem comboParams_WF {c : Combo} {ps : Params} (hwf : paramsWF ps) :
    paramsWF (comboParams c ps) := by
  have h1 : paramsWF (insertP ps ("output", fmtStr c.fmt)) :=
    insertP_WF hwf (by decide) (by cases c.fmt <;> decide)
  have h2 : paramsWF (applyOwn c.own (insertP ps ("output", fmtStr c.fmt))) :=
    applyOwn_WF h1
  rw [comboParams]
  cases hd : c.dated
  · simpa using h2
  · simp only [if_true]
    exact insertP_WF (insertP_WF h2 (by decide) (goodVal_getD hwf "datea"))
      (by decide) (goodVal_getD hwf "dateb")

theorem getVal_applyOwn_other {o : OwnAxis} {ps : Params} {k : String}
    (h : k ≠ "myowner") : getVal k (applyOwn o ps) = getVal k ps := by
  cases o with
  | ownOnly => exact getVal_insertP_ne h
  | ownExclude => exact getVal_insertP_ne h
  | ownInclude => exact getVal_removeKey_ne h

theorem getVal_comboParams_base {c : Combo} {ps : Params} {k : String}
    (ho : k ≠ "output") (hm : k ≠ "myowner") :
    getVal k (applyOwn c.own (insertP ps ("output", fmtStr c.fmt))) = getVal k ps := by
  rw [getVal_applyOwn_other hm, getVal_insertP_ne ho]

theorem getVal_comboParams_other {c : Combo} {ps : Params} {k : String}
    (ho : k ≠ "output") (hm : k ≠ "myowner") (ha : k ≠ "datea") (hb : k ≠ "dateb") :
    getVal k (comboParams c ps) = getVal k ps := by
  rw [comboParams]
  cases c.dated
  · simpa using getVal_comboParams_base ho hm
  · simp only [if_true]
    rw [getVal_insertP_ne hb, getVal_insertP_ne ha]
    exact getVal_comboParams_base ho hm

theorem getVal_comboParams_output {c : Combo} {ps : Params} :
    getVal "output" (comboParams c ps) = some (fmtStr c.fmt) := by
  rw [comboParams]
  have hbase : getVal "output" (applyOwn c.own (insertP ps ("output", fmtStr c.fmt))) =
      some (fmtStr c.fmt) := by
    rw [getVal_applyOwn_other (by decide), getVal_insertP_self]
  cases c.dated
  · simpa using hbase
  · simp only [if_true]
    rw [getVal_insertP_ne (by decide), getVal_insertP_ne (by decide)]
    exact hbase

theorem getVal_applyOwn_myowner {o : OwnAxis} {ps : Params} :
    getVal "myowner" (applyOwn o ps) = ownExpect o := by
  cases o with
  | ownOnly => exact getVal_insertP_self
  | ownExclude => exact getVal_insertP_self
  | ownInclude => exact getVal_removeKey_self

theorem getVal_comboParams_myowner {c : Combo} {ps : Params} :
    getVal "myowner" (comboParams c ps) = ownExpect c.own := by
  rw [comboParams]
  cases c.dated
  · simpa using getVal_applyOwn_myowner
  · simp only [if_true]
    rw [getVal_insertP_ne (by decide), getVal_insertP_ne (by decide)]
    exact getVal_applyOwn_myowner

theorem getVal_comboParams_datea {c : Combo} {ps : Params} (hd : c.dated = true) :
    getVal "datea" (comboParams c ps) = some ((getVal "datea" ps).getD "") := by
  rw [comboParams, hd]
  simp only [if_true]
  rw [getVal_insertP_ne (by decide), getVal_insertP_self]

theorem getVal_comboParams_dateb {c : Combo} {ps : Params} (hd : c.dated = true) :
    getVal "dateb" (comboParams c ps) = some ((getVal "dateb" ps).getD "") := by
  rw [comboParams, hd]
  simp only [if_true]
  rw [getVal_insertP_self]

theorem getVal_comboParams_datea_undated {c : Combo} {ps : Params} (hd : c.dated = false) :
    getVal "datea" (comboParams c ps) = getVal "datea" ps := by
  rw [comboParams, hd]
  simpa using getVal_comboParams_base (by decide) (by decide)

theorem getVal_comboParams_dateb_undated {c : Combo} {ps : Params} (hd : c.dated = false) :
    getVal "dateb" (comboParams c ps) = getVal "dateb" ps := by
  rw [comboParams, hd]
  simpa using getVal_comboParams_base (by decide) (by decide)

theorem getVal_nil_ne_some {k v : String} : getVal k [] ≠ some v := by
  simp [getVal]

theorem comboParams_ne_nil {c : Combo} {ps : Params} : comboParams c ps ≠ [] := by
  intro h
  have : getVal "output" (comboParams c ps) = some (fmtStr c.fmt) :=
    getVal_comboParams_output
  rw [h] at this
  exact getVal_nil_ne_some this

theorem parseUrl_inv {base : String} {path : List Char} {ps : Params}
    (h : parseUrl base = some (path, ps)) : paramsWF ps ∧ '?' ∉ path := by
  rw [parseUrl] at h
  rcases hq : parseQuery ((splitUrl base).2.getD []) with _ | ps0 <;> rw [hq] at h
  · exact absurd h (by simp)
  · simp only [Option.some.injEq, Prod.mk.injEq] at h
    refine ⟨h.2 ▸ parseQuery_WF hq, ?_⟩
    rw [← h.1]
    exact breakAt_fst_not_mem '?' base.data

theorem derive_variants_eq {base : String} {path : List Char} {ps : Params}
    (h : parseUrl base = some (path, ps)) :
    derive_variants base =
      some (allCombos.map fun c => (comboKey c, serializeUrl path (comboParams c ps))) := by
  rw [derive_variants, h]

theorem allCombos_keys_nodup : (allCombos.map comboKey).Nodup := by decide

theorem getVal_map_pairs {γ : Type} (key : γ → String) (f : γ → String) :
    ∀ (l : List γ), (l.map key).Nodup → ∀ c ∈ l,
      getVal (key c) (l.map fun x => (key x, f x)) = some (f c) := by
  intro l
  induction l with
  | nil => intro _ c hc; simp at hc
  | cons x xs ih =>
    intro hnd c hc
    simp only [List.map_cons, List.nodup_cons] at hnd
    rcases List.mem_cons.mp hc with rfl | hc2
    · simp [getVal]
    · have hne : ¬ key x = key c := fun hk => hnd.1 (hk ▸ List.mem_map_of_mem key hc2)
      simp only [List.map_cons, getVal, if_neg hne]
      exact ih hnd.2 c hc2

/-- The full behaviour of one derived URL: it is present in the
synthesizer's output under its matrix key, its query string re-parses,
the targeted parameters carry exactly the expected values, and every
other parameter of the base URL is unchanged. -/
theorem derive_variant_cell {base : String} {path : List Char} {ps : Params}
    (h : parseUrl base = some (path, ps)) {c : Combo} (hc : c ∈ allCombos) :
    (∃ vars, derive_variants base = some vars ∧
      getVal (comboKey c) vars = some (serializeUrl path (comboParams c ps))) ∧
    parseUrl (serializeUrl path (comboParams c ps)) = some (path, comboParams c ps) ∧
    getVal "output" (comboParams c ps) = some (fmtStr c.fmt) ∧
    getVal "myowner" (comboParams c ps) = ownExpect c.own ∧
    (c.dated = true →
      getVal "datea" (comboParams c ps) = some ((getVal "datea" ps).getD "") ∧
      getVal "dateb" (comboParams c ps) = some ((getVal "dateb" ps).getD "")) ∧
    (c.dated = false →
      getVal "datea" (comboParams c ps) = getVal "datea" ps ∧
      getVal "dateb" (comboParams c ps) = getVal "dateb" ps) ∧
    (∀ k, k ≠ "output" → k ≠ "myowner" → k ≠ "datea" → k ≠ "dateb" →
      getVal k (comboParams c ps) = getVal k ps) := by
  obtain ⟨hwf, hpath⟩ := parseUrl_inv h
  refine ⟨⟨_, derive_variants_eq h, ?_⟩, ?_, getVal_comboParams_output,
    getVal_comboParams_myowner,
    fun hd => ⟨getVal_comboParams_datea hd, getVal_comboParams_dateb hd⟩,
    fun hd => ⟨getVal_comboParams_datea_undated hd, getVal_comboParams_dateb_undated hd⟩,
    fun k ho hm ha hb => getVal_comboParams_other ho hm ha hb⟩
  · exact getVal_map_pairs comboKey _ allCombos allCombos_keys_nodup c hc
  · exact parseUrl_serializeUrl hpath (comboParams_WF hwf)

/-- C1: for every base URL whose query string parses into an ordered
parameter mapping, each of the 12 derived URLs produced by
`derive_variants` differs from the base URL only in the targeted
parameters (`output`, `myowner`, and for date-filtered variants
`datea`/`dateb`): re-parsing each derived URL's query string yields
exactly the expected value for `output`/`myowner`/`datea`/`dateb` for
that combination and an unchanged value for every other parameter. -/
theorem derive_variants_roundtrip (base : String) (path : List Char) (ps : Params)
    (h : parseUrl base = some (path, ps)) :
    allCombos.length = 12 ∧
    ∀ c ∈ allCombos,
      (∃ vars, derive_variants base = some vars ∧
        getVal (comboKey c) vars = some (serializeUrl path (comboParams c ps))) ∧
      parseUrl (serializeUrl path (comboParams c ps)) = some (path, comboParams c ps) ∧
      getVal "output" (comboParams c ps) = some (fmtStr c.fmt) ∧
      getVal "myowner" (comboParams c ps) = ownExpect c.own ∧
      (c.dated = true →
        getVal "datea" (comboParams c ps) = some ((getVal "datea" ps).getD "") ∧
        getVal "dateb" (comboParams c ps) = some ((getVal "dateb" ps).getD "")) ∧
      (c.dated = false →
        getVal "datea" (comboParams c ps) = getVal "datea" ps ∧
        getVal "dateb" (comboParams c ps) = getVal "dateb" ps) ∧
      (∀ k, k ≠ "output" → k ≠ "myowner" → k ≠ "datea" → k ≠ "dateb" →
        getVal k (comboParams c ps) = getVal k ps) :=
  ⟨by decide, fun _ hc => derive_variant_cell h hc⟩

/-- Witness for C1 at the concrete base URL
`https://x?CIK=66740&action=getcompany&output=atom`, instantiated at the
`html_owner_only` matrix cell and the untouched `CIK` parameter. -/
theorem derive_variants_roundtrip_witness :
    parseUrl "https://x?CIK=66740&action=getcompany&output=atom" =
      some ("https://x".data,
        [("CIK", "66740"), ("action", "getcompany"), ("output", "atom")]) ∧
    ((⟨.html, .ownOnly, false⟩ : Combo) ∈ allCombos ∧
      getVal "output" (comboParams ⟨.html, .ownOnly, false⟩
        [("CIK", "66740"), ("action", "getcompany"), ("output", "atom")]) = some "html" ∧
      getVal "CIK" (comboParams ⟨.html, .ownOnly, false⟩
        [("CIK", "66740"), ("action", "getcompany"), ("output", "atom")]) =
        getVal "CIK" [("CIK", "66740"), ("action", "getcompany"), ("output", "atom")]) := by
  have h : parseUrl "https://x?CIK=66740&action=getcompany&output=atom" =
      some ("https://x".data,
        [("CIK", "66740"), ("action", "getcompany"), ("output", "atom")]) := by decide
  have hcell := (derive_variants_roundtrip _ _ _ h).2 ⟨.html, .ownOnly, false⟩ (by decide)
  exact ⟨h, by decide, hcell.2.2.1,
    hcell.2.2.2.2.2.2 "CIK" (by decide) (by decide) (by decide) (by decide)⟩

/-- C8: for every base URL (with parseable query string), the URLs
`derive_variants` produces on the ownership-inclusion axis rewrite the
`myowner` query parameter to `only` for the `owner_only` variants, to
`exclude` for the `owner_exclude` variants, and remove the parameter for
the `owner_include` variants. -/
theorem derive_variants_ownership (base : String) (path : List Char) (ps : Params)
    (h : parseUrl base = some (path, ps)) :
    ∀ c ∈ allCombos,
      (∃ vars, derive_variants base = some vars ∧
        getVal (comboKey c) vars = some (serializeUrl path (comboParams c ps))) ∧
      parseUrl (serializeUrl path (comboParams c ps)) = some (path, comboParams c ps) ∧
      (c.own = .ownOnly → getVal "myowner" (comboParams c ps) = some "only") ∧
      (c.own = .ownExclude → getVal "myowner" (comboParams c ps) = some "exclude") ∧
      (c.own = .ownInclude → getVal "myowner" (comboParams c ps) = none) := by
  intro c hc
  have hcell := derive_variant_cell h hc
  have hmy := hcell.2.2.2.1
  refine ⟨hcell.1, hcell.2.1, fun ho => ?_, fun ho => ?_, fun ho => ?_⟩ <;>
    rw [ho] at hmy <;> exact hmy

/-- Witness for C8 at the concrete base URL `a?myowner=zzz&x=1`,
instantiated at the `atom_owner_only` and `atom_owner_include` cells. -/
theorem derive_variants_ownership_witness :
    parseUrl "a?myowner=zzz&x=1" = some ("a".data, [("myowner", "zzz"), ("x", "1")]) ∧
    getVal "myowner" (comboParams ⟨.atom, .ownOnly, false⟩
      [("myowner", "zzz"), ("x", "1")]) = some "only" ∧
    getVal "myowner" (comboParams ⟨.atom, .ownInclude, false⟩
      [("myowner", "zzz"), ("x", "1")]) = none := by
  have h : parseUrl "a?myowner=zzz&x=1" =
      some ("a".data, [("myowner", "zzz"), ("x", "1")]) := by decide
  refine ⟨h, ?_, ?_⟩
  · exact (derive_variants_ownership _ _ _ h ⟨.atom, .ownOnly, false⟩ (by decide)).2.2.1 rfl
  · exact (derive_variants_ownership _ _ _ h ⟨.atom, .ownInclude, false⟩ (by decide)).2.2.2.2 rfl

/-! ## Lemmas on the normalizer -/

theorem mapRecords_length : ∀ {doc : List FeedEntry} {recs : List Record},
    mapRecords doc = .ok recs → recs.length = doc.length := by
  intro doc
  induction doc with
  | nil =>
    intro recs h
    rw [mapRecords] at h
    simp only [Except.ok.injEq] at h
    subst h
    rfl
  | cons e es ih =>
    intro recs h
    rw [mapRecords] at h
    rcases hr : mkRecord e with err | r <;> rw [hr] at h
    · exact absurd h (by simp)
    · rcases hrs : mapRecords es with err | rs <;> rw [hrs] at h
      · exact absurd h (by simp)
      · simp only [Except.ok.injEq] at h
        subst h
        simp [ih hrs]

theorem mapRecords_get : ∀ {doc : List FeedEntry} {recs : List Record},
    mapRecords doc = .ok recs →
    ∀ i (hi : i < doc.length) (hr : i < recs.length),
      mkRecord (doc.get ⟨i, hi⟩) = .ok (recs.get ⟨i, hr⟩) := by
  intro doc
  induction doc with
  | nil => intro recs _ i hi; exact absurd hi (by simp)
  | cons e es ih =>
    intro recs h i hi hri
    rw [mapRecords] at h
    rcases hr : mkRecord e with err | r <;> rw [hr] at h
    · exact absurd h (by simp)
    · rcases hrs : mapRecords es with err | rs <;> rw [hrs] at h
      · exact absurd h (by simp)
      · simp only [Except.ok.injEq] at h
        subst h
        cases i with
        | zero => exact hr
        | succ j =>
          exact ih hrs j (Nat.lt_of_succ_lt_succ hi) (Nat.lt_of_succ_lt_succ hri)

theorem mapRecords_mem : ∀ {doc : List FeedEntry} {recs : List Record},
    mapRecords doc = .ok recs →
    ∀ r ∈ recs, ∃ e ∈ doc, mkRecord e = .ok r := by
  intro doc
  induction doc with
  | nil =>
    intro recs h r hrm
    rw [mapRecords] at h
    simp only [Except.ok.injEq] at h
    subst h
    simp at hrm
  | cons e es ih =>
    intro recs h r hrm
    rw [mapRecords] at h
    rcases hr : mkRecord e with err | r0 <;> rw [hr] at h
    · exact absurd h (by simp)
    · rcases hrs : mapRecords es with err | rs <;> rw [hrs] at h
      · exact absurd h (by simp)
      · simp only [Except.ok.injEq] at h
        subst h
        rcases List.mem_cons.mp hrm with rfl | hrm2
        · exact ⟨e, by simp, hr⟩
        · rcases ih hrs r hrm2 with ⟨e2, he2, hmk⟩
          exact ⟨e2, List.mem_cons_of_mem e he2, hmk⟩

theorem derive_variants_keys {u : String} {vars : Params}
    (h : derive_variants u = some vars) : vars.map Prod.fst = derivedKeys := by
  rw [derive_variants] at h
  rcases hp : parseUrl u with _ | pair <;> rw [hp] at h
  · exact absurd h (by simp)
  · simp only [Option.some.injEq] at h
    subst h
    rw [derivedKeys, List.map_map]
    rfl

theorem getVal_isSome_of_mem_keys {k : String} : ∀ {m : Params},
    k ∈ m.map Prod.fst → (getVal k m).isSome := by
  intro m
  induction m with
  | nil => intro h; simp at h
  | cons p ps ih =>
    intro h
    by_cases hp : p.1 = k
    · simp [getVal, hp]
    · simp only [List.map_cons, List.mem_cons] at h
      rcases h with h | h
      · exact absurd h.symm hp
      · simp only [getVal, if_neg hp]
        exact ih h

theorem mkRecord_derived_present {e : FeedEntry} {r : Record}
    (h : mkRecord e = .ok r) : ∀ k ∈ derivedKeys, (getVal k r).isSome := by
  intro k hk
  rw [mkRecord] at h
  rcases hv : derive_variants (entryHref e) with _ | vars <;> rw [hv] at h
  · exact absurd h (by simp)
  · simp only [Except.ok.injEq] at h
    subst h
    exact getVal_isSome_append_right
      (getVal_isSome_of_mem_keys ((derive_variants_keys hv).symm ▸ hk))

/-- C2: for every well-formed non-empty input feed, every Record returned
by the normalizer has all 12 derived-URL field keys (the six
`{format}_{ownership_label}` keys and their six date-filtered variants)
present, regardless of which optional summary sub-fields are present in
that entry. -/
theorem normalize_shape (doc : List FeedEntry) (lim : Option Nat) (recs : List Record)
    (hne : doc ≠ []) (h : normalizeDoc doc lim = .ok recs) :
    derivedKeys.length = 12 ∧
    ∀ r ∈ recs, ∀ k ∈ derivedKeys, (getVal k r).isSome := by
  refine ⟨by decide, ?_⟩
  rw [normalizeDoc] at h
  rcases hm : mapRecords doc with err | recs0 <;> rw [hm] at h
  · exact absurd h (by simp)
  · have hsub : ∀ r ∈ recs, r ∈ recs0 := by
      cases lim with
      | none =>
        simp only [Except.ok.injEq] at h
        subst h
        exact fun r hr => hr
      | some n =>
        simp only [Except.ok.injEq] at h
        subst h
        exact fun r hr => List.take_subset n recs0 hr
    intro r hr k hk
    rcases mapRecords_mem hm r (hsub r hr) with ⟨e, _, hmk⟩
    exact mkRecord_derived_present hmk k hk

/-- Witness for C2 on a concrete one-entry feed. -/
theorem normalize_shape_witness :
    ([sampleEntry] : List FeedEntry) ≠ [] ∧
    normalizeDoc [sampleEntry] none = .ok [sampleRecord] ∧
    "atom_owner_only" ∈ derivedKeys ∧
    (getVal "atom_owner_only" sampleRecord).isSome := by
  have h : normalizeDoc [sampleEntry] none = .ok [sampleRecord] := by rfl
  refine ⟨by simp, h, by decide, ?_⟩
  exact (normalize_shape [sampleEntry] none [sampleRecord] (by simp) h).2
    sampleRecord (by simp) "atom_owner_only" (by decide)

/-- C3: for every well-formed feed and every positive `n`, the
normalizer with `result_limit = n` returns exactly `min n entry_count`
records, and those records equal the first `n` records of the unlimited
run: the limit is a prefix truncation of the fully normalized sequence,
never a filter. -/
theorem normalize_limit (doc : List FeedEntry) (n : Nat) (recs : List Record)
    (hn : 0 < n) (h : normalizeDoc doc none = .ok recs) :
    normalizeDoc doc (some n) = .ok (recs.take n) ∧
    (recs.take n).length = min n recs.length ∧
    recs.length = doc.length := by
  rw [normalizeDoc] at h
  rcases hm : mapRecords doc with err | recs0 <;> rw [hm] at h
  · exact absurd h (by simp)
  · simp only [Except.ok.injEq] at h
    subst h
    refine ⟨?_, List.length_take n recs0, mapRecords_length hm⟩
    rw [normalizeDoc, hm]

/-- Witness for C3 on a concrete two-entry feed with limit 1. -/
theorem normalize_limit_witness :
    0 < 1 ∧
    normalizeDoc [sampleEntry, bareEntry] none = .ok [sampleRecord, bareRecord] ∧
    normalizeDoc [sampleEntry, bareEntry] (some 1) =
      .ok ([sampleRecord, bareRecord].take 1) ∧
    ([sampleRecord, bareRecord].take 1).length = min 1 [sampleRecord, bareRecord].length ∧
    ([sampleRecord, bareRecord] : List Record).length =
      ([sampleEntry, bareEntry] : List FeedEntry).length := by
  have h : normalizeDoc [sampleEntry, bareEntry] none = .ok [sampleRecord, bareRecord] := by rfl
  have hc := normalize_limit [sampleEntry, bareEntry] 1 [sampleRecord, bareRecord]
    (by decide) h
  exact ⟨by decide, h, hc.1, hc.2.1, hc.2.2⟩

/-- C4: for every well-formed input feed, the order of the Records
returned by the normalizer equals the order of the entry nodes in the
source document: the i-th record is exactly the normalization of the
i-th entry, so the normalizer never reorders and never deduplicates. -/
theorem normalize_order (doc : List FeedEntry) (recs : List Record)
    (h : normalizeDoc doc none = .ok recs) :
    recs.length = doc.length ∧
    ∀ i (hi : i < doc.length) (hr : i < recs.length),
      mkRecord (doc.get ⟨i, hi⟩) = .ok (recs.get ⟨i, hr⟩) := by
  rw [normalizeDoc] at h
  rcases hm : mapRecords doc with err | recs0 <;> rw [hm] at h
  · exact absurd h (by simp)
  · simp only [Except.ok.injEq] at h
    subst h
    exact ⟨mapRecords_length hm, mapRecords_get hm⟩

/-- Witness for C4 on a concrete two-entry feed (with duplicated entry),
instantiated at index 1. -/
theorem normalize_order_witness :
    normalizeDoc [sampleEntry, sampleEntry] none = .ok [sampleRecord, sampleRecord] ∧
    ([sampleRecord, sampleRecord] : List Record).length =
      ([sampleEntry, sampleEntry] : List FeedEntry).length ∧
    mkRecord (([sampleEntry, sampleEntry] : List FeedEntry).get ⟨1, by decide⟩) =
      .ok (([sampleRecord, sampleRecord] : List Record).get ⟨1, by decide⟩) := by
  have h : normalizeDoc [sampleEntry, sampleEntry] none =
      .ok [sampleRecord, sampleRecord] := by rfl
  have hc := normalize_order [sampleEntry, sampleEntry] [sampleRecord, sampleRecord] h
  exact ⟨h, hc.1, hc.2 1 (by decide) (by decide)⟩

theorem getVal_cons_self {k v : String} {rest : Params} :
    getVal k ((k, v) :: rest) = some v := by
  simp [getVal]

theorem getVal_cons_ne {k k' v : String} {rest : Params} (h : k' ≠ k) :
    getVal k ((k', v) :: rest) = getVal k rest := by
  simp [getVal, h]

/-- C6: a well-formed entry missing its summary field normalizes without
error to a Record in which all summary-derived keys are absent (the
field list is exactly the six fixed scalar/link keys followed by the 12
derived-URL keys) while every other key is present; missing scalar
fields resolve to the empty string. -/
theorem normalize_tolerance (e : FeedEntry) (vars : Params)
    (hs : e.summary? = none)
    (hv : derive_variants (entryHref e) = some vars) :
    mkRecord e = .ok (extract e ++ vars) ∧
    (extract e ++ vars).map Prod.fst =
      ["id", "title", "summary", "updated", "href", "type"] ++ derivedKeys ∧
    getVal "summary" (extract e ++ vars) = some "" ∧
    getVal "id" (extract e ++ vars) = some (e.id?.getD "") ∧
    getVal "title" (extract e ++ vars) = some (e.title?.getD "") ∧
    getVal "updated" (extract e ++ vars) = some (e.updated?.getD "") ∧
    getVal "href" (extract e ++ vars) = some (entryHref e) ∧
    getVal "type" (extract e ++ vars) = some (entryType e) ∧
    (e.id? = none → getVal "id" (extract e ++ vars) = some "") := by
  have hsum : summaryFields e = [] := by rw [summaryFields, hs]
  have hex : extract e =
      [("id", e.id?.getD ""), ("title", e.title?.getD ""),
       ("summary", e.summary?.getD ""), ("updated", e.updated?.getD ""),
       ("href", entryHref e), ("type", entryType e)] := rfl
  refine ⟨?_, ?_, ?_, ?_, ?_, ?_, ?_, ?_, ?_⟩
  · rw [mkRecord, hv, hsum]
    simp
  · rw [List.map_append, derive_variants_keys hv, hex]
    rfl
  · rw [hex, hs]
    simp only [List.cons_append]
    rw [getVal_cons_ne (by decide), getVal_cons_ne (by decide), getVal_cons_self]
    rfl
  · rw [hex]
    simp only [List.cons_append]
    rw [getVal_cons_self]
  · rw [hex]
    simp only [List.cons_append]
    rw [getVal_cons_ne (by decide), getVal_cons_self]
  · rw [hex]
    simp only [List.cons_append]
    rw [getVal_cons_ne (by decide), getVal_cons_ne (by decide),
      getVal_cons_ne (by decide), getVal_cons_self]
  · rw [hex]
    simp only [List.cons_append]
    rw [getVal_cons_ne (by decide), getVal_cons_ne (by decide),
      getVal_cons_ne (by decide), getVal_cons_ne (by decide), getVal_cons_self]
  · rw [hex]
    simp only [List.cons_append]
    rw [getVal_cons_ne (by decide), getVal_cons_ne (by decide),
      getVal_cons_ne (by decide), getVal_cons_ne (by decide),
      getVal_cons_ne (by decide), getVal_cons_self]
  · intro hid
    rw [hex, hid]
    simp only [List.cons_append]
    rw [getVal_cons_self]
    rfl

/-- Witness for C6 on the concrete entry with every optional field
missing. -/
theorem normalize_tolerance_witness :
    bareEntry.summary? = none ∧
    derive_variants (entryHref bareEntry) = some bareVars ∧
    mkRecord bareEntry = .ok (extract bareEntry ++ bareVars) ∧
    (extract bareEntry ++ bareVars).map Prod.fst =
      ["id", "title", "summary", "updated", "href", "type"] ++ derivedKeys ∧
    getVal "summary" (extract bareEntry ++ bareVars) = some "" ∧
    getVal "id" (extract bareEntry ++ bareVars) = some "" := by
  have hs : bareEntry.summary? = none := rfl
  have hv : derive_variants (entryHref bareEntry) = some bareVars := by rfl
  have hc := normalize_tolerance bareEntry bareVars hs hv
  exact ⟨hs, hv, hc.1, hc.2.1, hc.2.2.1, hc.2.2.2.2.2.2.2.2 rfl⟩

theorem getVal_foldl_insertP : ∀ (ps : List (String × String)) (acc : Params) (k : String),
    getVal k (ps.foldl insertP acc) =
      match lastVal k ps with
      | some v => some v
      | none => getVal k acc := by
  intro ps
  induction ps with
  | nil => intro acc k; rfl
  | cons p pr ih =>
    intro acc k
    rw [List.foldl_cons, ih, lastVal]
    rcases lastVal k pr with _ | v
    · by_cases hp : p.1 = k
      · have : insertP acc p = insertP acc (k, p.2) := by rw [← hp]
        simp only [this, if_pos hp, getVal_insertP_self]
      · have : insertP acc p = insertP acc (p.1, p.2) := rfl
        simp only [this, if_neg hp, getVal_insertP_ne (fun hh : k = p.1 => hp hh.symm)]
    · rfl

/-- C7: for every summary text, `parse_summary` maps each normalized
lower-kebab-case label key to the trimmed value of the label's last
occurrence (overwrite semantics, so a repeated label's last occurrence
wins, without error), and a summary with no recognizable label:value
pairs yields the empty mapping (both functions are total, so no error is
ever raised). -/
theorem parse_summary_last_wins (s : String) (k : String) :
    getVal k (parse_summary s) = lastVal k (scan_summary s) ∧
    (scan_summary s = [] → parse_summary s = []) := by
  constructor
  · rw [parse_summary, getVal_foldl_insertP]
    rcases lastVal k (scan_summary s) with _ | v
    · rfl
    · rfl
  · intro h
    rw [parse_summary, h]
    rfl

/-- Witness for C7: a summary with a duplicated `CIK` label, whose last
occurrence wins, and a label-free summary yielding the empty mapping. -/
theorem parse_summary_last_wins_witness :
    getVal "cik" (parse_summary "<b>CIK:</b> 1, <b>CIK:</b> 2") =
      lastVal "cik" (scan_summary "<b>CIK:</b> 1, <b>CIK:</b> 2") ∧
    getVal "cik" (parse_summary "<b>CIK:</b> 1, <b>CIK:</b> 2") = some "2" ∧
    scan_summary "no labels here" = [] ∧
    parse_summary "no labels here" = [] := by
  refine ⟨(parse_summary_last_wins "<b>CIK:</b> 1, <b>CIK:</b> 2" "cik").1,
    by decide, by decide,
    (parse_summary_last_wins "no labels here" "cik").2 (by decide)⟩

/-- C5: for every input text that is not well-formed markup (the
document parse fails), `parse_entries` returns the `MalformedFeedError`
outcome, fully propagated to the caller: no partial sequence of Records
is ever returned for that call. -/
theorem malformed_fatal (s : String) (lim : Option Nat) (err : Unit)
    (h : xmlParse s = .error err) :
    parse_entries s lim = .error .malformedFeed ∧
    ∀ recs : List Record, parse_entries s lim ≠ .ok recs := by
  have h1 : parse_entries s lim = .error .malformedFeed := by
    rw [parse_entries, h]
  refine ⟨h1, fun recs hc => ?_⟩
  rw [h1] at hc
  exact absurd hc (by simp)

/-- Witness for C5 on a concrete feed with a mismatched closing tag. -/
theorem malformed_fatal_witness :
    xmlParse "<feed><entry></feed>" = .error () ∧
    parse_entries "<feed><entry></feed>" (some 5) = .error .malformedFeed := by
  have h : xmlParse "<feed><entry></feed>" = .error () := by rfl
  exact ⟨h, (malformed_fatal _ (some 5) () h).1⟩

/-- C9: `companies_by_sic` returns the same result given the same
upstream response text regardless of `num_of_companies`: the parameter
is never forwarded to `parse_entries`, so — unlike `companies_by_state`
and `companies_by_country`, which do forward it — the result-count cap
is never applied in `companies_by_sic`. -/
theorem companies_by_sic_ignores_limit (sic_code : String) (n1 n2 : Option Nat)
    (t : String) :
    companies_by_sic sic_code n1 t = companies_by_sic sic_code n2 t ∧
    companies_by_sic sic_code n1 t = parse_entries t none ∧
    (∀ st n, companies_by_state st n t = parse_entries t n) ∧
    (∀ co n, companies_by_country co n t = parse_entries t n) :=
  ⟨rfl, rfl, fun _ _ => rfl, fun _ _ => rfl⟩

theorem clean_directory_spec (cik : String) (d : Params) (nm lm : String)
    (hn : getVal "name" d = some nm) (hl : getVal "last-modified" d = some lm) :
    ∃ o, clean_directory cik d = some o ∧
      getVal "filing_id" o = some nm ∧
      getVal "last_modified" o = some lm ∧
      getVal "name" o = none ∧
      getVal "last-modified" o = none ∧
      getVal "url" o = some (sec_archive ++ "/" ++ cik ++ "/" ++ nm ++ "/index.json") ∧
      ∀ k, k ≠ "name" → k ≠ "last-modified" → k ≠ "url" → k ≠ "filing_id" →
        k ≠ "last_modified" → getVal k o = getVal k d := by
  have h1 : getVal "name"
      (insertP d ("url", sec_archive ++ "/" ++ cik ++ "/" ++ nm ++ "/index.json")) = some nm := by
    rw [getVal_insertP_ne (by decide)]
    exact hn
  have h2 : getVal "last-modified"
      (insertP (removeKey "name"
        (insertP d ("url", sec_archive ++ "/" ++ cik ++ "/" ++ nm ++ "/index.json")))
        ("filing_id", nm)) = some lm := by
    rw [getVal_insertP_ne (by decide), getVal_removeKey_ne (by decide),
      getVal_insertP_ne (by decide)]
    exact hl
  refine ⟨insertP (removeKey "last-modified"
      (insertP (removeKey "name"
        (insertP d ("url", sec_archive ++ "/" ++ cik ++ "/" ++ nm ++ "/index.json")))
        ("filing_id", nm))) ("last_modified", lm), ?_, ?_, ?_, ?_, ?_, ?_, ?_⟩
  · simp only [clean_directory, dictPop, hn, h1, h2]
  · rw [getVal_insertP_ne (by decide), getVal_removeKey_ne (by decide),
      getVal_insertP_self]
  · rw [getVal_insertP_self]
  · rw [getVal_insertP_ne (by decide), getVal_removeKey_ne (by decide),
      getVal_insertP_ne (by decide), getVal_removeKey_self]
  · rw [getVal_insertP_ne (by decide), getVal_removeKey_self]
  · rw [getVal_insertP_ne (by decide), getVal_removeKey_ne (by decide),
      getVal_insertP_ne (by decide), getVal_removeKey_ne (by decide),
      getVal_insertP_self]
  · intro k hk1 hk2 hk3 hk4 hk5
    rw [getVal_insertP_ne hk5, getVal_removeKey_ne hk2, getVal_insertP_ne hk4,
      getVal_removeKey_ne hk1, getVal_insertP_ne hk3]

/-- C10: for every directory-listing item list, `company_directories`
returns one dictionary per input item in the same order where
`filing_id` carries the input item's `name`, `last_modified` carries its
`last-modified` (both original keys removed), `url` is the archive base
followed by `/{cik}/{filing_id}/index.json`, and every other input key
is copied unchanged. -/
theorem company_directories_spec (cik : String) (items : List Params)
    (h : ∀ d ∈ items, (getVal "name" d).isSome ∧ (getVal "last-modified" d).isSome) :
    ∃ outs, company_directories cik items = some outs ∧
      outs.length = items.length ∧
      ∀ i (hi : i < items.length) (ho : i < outs.length),
        getVal "filing_id" (outs.get ⟨i, ho⟩) = getVal "name" (items.get ⟨i, hi⟩) ∧
        getVal "last_modified" (outs.get ⟨i, ho⟩) =
          getVal "last-modified" (items.get ⟨i, hi⟩) ∧
        getVal "name" (outs.get ⟨i, ho⟩) = none ∧
        getVal "last-modified" (outs.get ⟨i, ho⟩) = none ∧
        getVal "url" (outs.get ⟨i, ho⟩) =
          some (sec_archive ++ "/" ++ cik ++ "/" ++
            ((getVal "name" (items.get ⟨i, hi⟩)).getD "") ++ "/index.json") ∧
        ∀ k, k ≠ "name" → k ≠ "last-modified" → k ≠ "url" → k ≠ "filing_id" →
          k ≠ "last_modified" →
          getVal k (outs.get ⟨i, ho⟩) = getVal k (items.get ⟨i, hi⟩) := by
  induction items with
  | nil =>
    refine ⟨[], rfl, rfl, ?_⟩
    intro i hi
    exact absurd hi (by simp)
  | cons d ds ih =>
    have hd := h d (by simp)
    rcases Option.isSome_iff_exists.mp hd.1 with ⟨nm, hn⟩
    rcases Option.isSome_iff_exists.mp hd.2 with ⟨lm, hl⟩
    rcases clean_directory_spec cik d nm lm hn hl with
      ⟨o, ho, hfid, hlm, hname, hlmod, hurl, hother⟩
    rcases ih (fun d2 hd2 => h d2 (List.mem_cons_of_mem d hd2)) with
      ⟨outs, houts, hlen, hpt⟩
    refine ⟨o :: outs, ?_, by simp [hlen], ?_⟩
    · rw [company_directories, ho, houts]
    · intro i hi hoi
      cases i with
      | zero =>
        refine ⟨?_, ?_, hname, hlmod, ?_, hother⟩
        · show getVal "filing_id" o = getVal "name" d
          rw [hn]
          exact hfid
        · show getVal "last_modified" o = getVal "last-modified" d
          rw [hl]
          exact hlm
        · show getVal "url" o =
            some (sec_archive ++ "/" ++ cik ++ "/" ++
              ((getVal "name" d).getD "") ++ "/index.json")
          rw [hn]
          exact hurl
      | succ j =>
        exact hpt j (Nat.lt_of_succ_lt_succ hi) (Nat.lt_of_succ_lt_succ hoi)

/-- Witness for C10 on a concrete one-item directory listing. -/
theorem company_directories_witness :
    (∀ d ∈ ([[("last-modified", "2019-07-02 12:27:42"), ("name", "000000000019010655"),
        ("size", ""), ("type", "folder.gif")]] : List Params),
      (getVal "name" d).isSome ∧ (getVal "last-modified" d).isSome) ∧
    company_directories "1265107"
      [[("last-modified", "2019-07-02 12:27:42"), ("name", "000000000019010655"),
        ("size", ""), ("type", "folder.gif")]] =
      some [[("size", ""), ("type", "folder.gif"),
        ("url", "https://www.sec.gov/Archives/edgar/data/1265107/000000000019010655/index.json"),
        ("filing_id", "000000000019010655"),
        ("last_modified", "2019-07-02 12:27:42")]] ∧
    getVal "filing_id" [("size", ""), ("type", "folder.gif"),
        ("url", "https://www.sec.gov/Archives/edgar/data/1265107/000000000019010655/index.json"),
        ("filing_id", "000000000019010655"),
        ("last_modified", "2019-07-02 12:27:42")] = some "000000000019010655" ∧
    getVal "name" [("size", ""), ("type", "folder.gif"),
        ("url", "https://www.sec.gov/Archives/edgar/data/1265107/000000000019010655/index.json"),
        ("filing_id", "000000000019010655"),
        ("last_modified", "2019-07-02 12:27:42")] = none := by
  have h : ∀ d ∈ ([[("last-modified", "2019-07-02 12:27:42"), ("name", "000000000019010655"),
      ("size", ""), ("type", "folder.gif")]] : List Params),
      (getVal "name" d).isSome ∧ (getVal "last-modified" d).isSome := by decide
  rcases company_directories_spec "1265107" _ h with ⟨outs, houts, _, hpt⟩
  have heq : company_directories "1265107"
      [[("last-modified", "2019-07-02 12:27:42"), ("name", "000000000019010655"),
        ("size", ""), ("type", "folder.gif")]] =
      some [[("size", ""), ("type", "folder.gif"),
        ("url", "https://www.sec.gov/Archives/edgar/data/1265107/000000000019010655/index.json"),
        ("filing_id", "000000000019010655"),
        ("last_modified", "2019-07-02 12:27:42")]] := by rfl
  have houts2 : outs = [[("size", ""), ("type", "folder.gif"),
      ("url", "https://www.sec.gov/Archives/edgar/data/1265107/000000000019010655/index.json"),
      ("filing_id", "000000000019010655"),
      ("last_modified", "2019-07-02 12:27:42")]] :=
    Option.some.inj (houts.symm.trans heq)
  subst houts2
  have h0 := hpt 0 (by decide) (by decide)
  exact ⟨h, heq, h0.1, h0.2.2.1⟩

end Pysec
